import Mathlib

/-!
Verification of the name-reconciliation and schedule-text-normalization
engine of the therme repository (src/generate_html.py).

The similarity scorers (`fuzz.ratio`, `fuzz.partial_ratio`,
`fuzz.token_sort_ratio`, `fuzz.token_set_ratio`) are external library
functions (rapidfuzz), not code of this repository; they are treated as
abstract parameters (`Scorers`), exactly as the specification treats them
("a whole-string similarity ratio, a best-substring-alignment ratio, ...").
Scores are modelled as naturals in 0..100.
-/

namespace Therme

/-- One detail record of the catalog (`activities_data['activities']` entry).
Only the `title` field participates in matching; `payload` stands for the
rest of the record and distinguishes records that share a title. -/
structure Activity where
  title : String
  payload : Nat
deriving DecidableEq

/-- Model of Python `str.lower` on a single character, covering the ASCII
range plus the Latin-1 uppercase letters and the Romanian comma-below /
breve letters that can occur in this repository's data.  (Python `.lower()`
maps every uppercase letter to its lowercase form; characters outside these
ranges that occur in the sources are already caseless.) -/
def pyCharLower (c : Char) : Char :=
  if 65 ≤ c.toNat ∧ c.toNat ≤ 90 then Char.ofNat (c.toNat + 32)
  else if 192 ≤ c.toNat ∧ c.toNat ≤ 222 ∧ c.toNat ≠ 215 then Char.ofNat (c.toNat + 32)
  else if c = 'Ă' then 'ă'
  else if c = 'Ș' then 'ș'
  else if c = 'Ț' then 'ț'
  else c

/-- Model of Python `str.lower`. -/
def pyLower (s : String) : String :=
  ⟨s.data.map pyCharLower⟩

/-- Python `needle in hay` on strings: contiguous-substring test. -/
def strContainedIn (needle hay : String) : Bool :=
  decide (needle.data <:+: hay.data)

/-- `activity_names`: the index's ordered name sequence
(`activity_names.append(activity['title'])` over the catalog). -/
def activity_names (catalog : List Activity) : List String :=
  catalog.map (·.title)

/-- One iteration of the map-building loop
`activity_details_map[activity['title']] = activity`: a record whose title
is the key overwrites whatever was stored before. -/
def mapStep (key : String) (acc : Option Activity) (a : Activity) : Option Activity :=
  if a.title = key then some a else acc

/-- `activity_details_map`: title → record mapping built by the loop over
the catalog; a later record with the same title overwrites an earlier one
(Python dict assignment). `activity_details_map catalog k` is
`dict.get(k)`. -/
def activity_details_map (catalog : List Activity) (key : String) : Option Activity :=
  catalog.foldl (mapStep key) none

/-- The four similarity scorers used by `find_best_match`, abstract
parameters standing for `fuzz.ratio`, `fuzz.partial_ratio`
(best-substring-alignment), `fuzz.token_sort_ratio` and
`fuzz.token_set_ratio` of the rapidfuzz library. -/
structure Scorers where
  ratio : String → String → Nat
  alignRatio : String → String → Nat
  tokenSortRatio : String → String → Nat
  tokenSetRatio : String → String → Nat

/-- The containment-stage similarity score:
`max(fuzz.ratio(q, n), fuzz.partial_ratio(q, n), fuzz.token_sort_ratio(q, n))`
(source lines 42-46). -/
def containmentScore (S : Scorers) (q n : String) : Nat :=
  max (S.ratio q n) (max (S.alignRatio q n) (S.tokenSortRatio q n))

/-- The containment test of source line 40:
`schedule_lower in activity_lower or activity_lower in schedule_lower`. -/
def containsEither (q n : String) : Bool :=
  strContainedIn (pyLower q) (pyLower n) || strContainedIn (pyLower n) (pyLower q)

/-- The containment stage (source lines 36-48): scan the names in order;
on the first candidate with case-folded mutual containment whose score
meets the threshold, return its record and score; candidates whose score
falls below the threshold are skipped. -/
def containmentStage (S : Scorers) (catalog : List Activity) (q : String) (t : Nat) :
    List String → Option (Option Activity × Nat)
  | [] => none
  | n :: rest =>
    if containsEither q n then
      if t ≤ containmentScore S q n then
        some (activity_details_map catalog n, containmentScore S q n)
      else
        containmentStage S catalog q t rest
    else
      containmentStage S catalog q t rest

/-- One step of `process.extractOne`: keep the current best, replacing it
only when the candidate's score meets the cutoff and strictly exceeds the
best so far (rapidfuzz keeps the first of equally-scoring candidates). -/
def extractStep (f : String → String → Nat) (q : String) (cutoff : Nat) :
    Option (String × Nat) → String → Option (String × Nat)
  | none, n => if cutoff ≤ f q n then some (n, f q n) else none
  | some best, n =>
    if cutoff ≤ f q n then
      if best.2 < f q n then some (n, f q n) else some best
    else some best

/-- `process.extractOne(q, names, scorer=f, score_cutoff=cutoff)`: the
first highest-scoring candidate at or above the cutoff, or `none`. -/
def extractOne (f : String → String → Nat) (q : String)
    (names : List String) (cutoff : Nat) : Option (String × Nat) :=
  names.foldl (extractStep f q cutoff) none

/-- The fixed scorer order of the best-effort loop (source line 54). -/
def scorerList (S : Scorers) : List (String → String → Nat) :=
  [S.ratio, S.alignRatio, S.tokenSortRatio, S.tokenSetRatio]

/-- Fold the result of one `extractOne` call into `(best_match, best_score)`
(source lines 61-65): if a candidate was found and its score strictly
exceeds the best so far, replace best match and best score. -/
def bestUpdate (catalog : List Activity) (acc : Option Activity × Nat) :
    Option (String × Nat) → Option Activity × Nat
  | some (n, s) => if acc.2 < s then (activity_details_map catalog n, s) else acc
  | none => acc

/-- One iteration of the best-effort loop body (source lines 55-65). -/
def bestStep (catalog : List Activity) (q : String) (t : Nat)
    (acc : Option Activity × Nat) (f : String → String → Nat) :
    Option Activity × Nat :=
  bestUpdate catalog acc (extractOne f q (activity_names catalog) t)

/-- The best-effort stage (source lines 50-67): fold the four scorers in
order over `(best_match, best_score)` initialised to `(None, 0)`. -/
def bestEffortStage (S : Scorers) (catalog : List Activity) (q : String) (t : Nat) :
    Option Activity × Nat :=
  (scorerList S).foldl (bestStep catalog q t) (none, 0)

/-- `find_best_match(schedule_name, threshold)` (source lines 29-67):
exact stage, then containment stage, then best-effort stage. -/
def find_best_match (S : Scorers) (catalog : List Activity)
    (schedule_name : String) (threshold : Nat) : Option Activity × Nat :=
  match (activity_names catalog).find? (fun n => pyLower schedule_name == pyLower n) with
  | some n => (activity_details_map catalog n, 100)
  | none =>
    match containmentStage S catalog schedule_name threshold (activity_names catalog) with
    | some r => r
    | none => bestEffortStage S catalog schedule_name threshold

/-- A character matched by `\s` in the time-line pattern (ASCII whitespace
class of Python `re`). -/
def isPySpace (c : Char) : Bool :=
  c == ' ' || c == '\t' || c == '\n' || c == '\r' || c == '\x0b' || c == '\x0c'

/-- Drop a (possibly empty) run of `\s*`. -/
def dropSpaces (cs : List Char) : List Char :=
  cs.dropWhile isPySpace

/-- Consume one expected literal character. -/
def expectChar (c : Char) : List Char → Option (List Char)
  | [] => none
  | d :: rest => if d = c then some rest else none

/-- Consume `\d{1,2}` (greedy; no backtracking is needed because the
following literal `:` is not a digit). -/
def take1or2Digits : List Char → Option (List Char)
  | [] => none
  | [c] => if c.isDigit then some [] else none
  | c :: d :: rest2 =>
    if c.isDigit then
      if d.isDigit then some rest2 else some (d :: rest2)
    else none

/-- Consume `\d{2}`. -/
def take2Digits : List Char → Option (List Char)
  | c1 :: c2 :: rest => if c1.isDigit && c2.isDigit then some rest else none
  | _ => none

/-- Consume one `\d{1,2}:\d{2}` hour-minute token. -/
def hhmm (cs : List Char) : Option (List Char) :=
  (take1or2Digits cs).bind (fun r1 => (expectChar ':' r1).bind take2Digits)

/-- `is_time_line` (source line 83): full-string match of
`^\d{1,2}:\d{2}(\s*-\s*\d{1,2}:\d{2})?$`. -/
def is_time_line (value : String) : Bool :=
  match hhmm value.data with
  | none => false
  | some rest =>
    rest.isEmpty ||
    (match (expectChar '-' (dropSpaces rest)).bind (fun r2 => hhmm (dropSpaces r2)) with
     | some [] => true
     | _ => false)

/-- `day_tokens` (source lines 85-88), byte-for-byte as the source file has
them: the last three entries are mojibake (double-encoded UTF-8) in the
repository itself. -/
def day_tokens : List String :=
  ["luni", "marti", "marÈ›i", "miercuri", "joi", "vineri",
   "sambata", "sÃ¢mbÄƒtÄƒ", "duminica", "duminicÄƒ"]

/-- `is_days_line` (source lines 90-92): the case-folded line contains some
day token. -/
def is_days_line (value : String) : Bool :=
  day_tokens.any (fun token => strContainedIn token (pyLower value))

/-- The characters that can appear in a string matched by the time-line
pattern: digits, the colon, the dash, and pattern whitespace. -/
def timeOK (c : Char) : Bool :=
  c.isDigit || c == ':' || c == '-' || isPySpace c

/-- The three line kinds of the classifier. -/
inductive LineKind
  | days
  | time
  | location
deriving DecidableEq

/-- Line classification in the order the source's parse loop tests the
predicates (source lines 99, 104, 114): days first, then time, otherwise
location. -/
def classifyLine (l : String) : LineKind :=
  if is_days_line l then LineKind.days
  else if is_time_line l then LineKind.time
  else LineKind.location

/-- Line classification in the order the specification words it (§4.2):
is-time-line checked first, is-days-line only if not a time line,
otherwise location. -/
def classifyLineSpec (l : String) : LineKind :=
  if is_time_line l then LineKind.time
  else if is_days_line l then LineKind.days
  else LineKind.location

/-- One structured schedule row `{days, location, time}`. -/
structure Row where
  days : String
  location : String
  time : String
deriving DecidableEq

/-- Python truthiness of an optional string (`None` and `''` are falsy). -/
def truthy : Option String → Bool
  | none => false
  | some s => !s.isEmpty

/-- The parse loop of `parse_schedule_program` (source lines 94-117), with
the two pieces of mutable state `current_days` and `current_location`
passed explicitly. -/
def parseLoop : List String → Option String → Option String → List Row
  | [], _, _ => []
  | line :: rest, curDays, curLoc =>
    if is_days_line line then
      parseLoop rest (some line) none
    else if is_time_line line then
      if truthy curLoc then
        { days := curDays.getD "", location := curLoc.getD "", time := line } ::
          parseLoop rest curDays none
      else
        parseLoop rest curDays curLoc
    else
      parseLoop rest curDays (some line)

/-- Split a character list at newline characters (Python `str.split('\n')`):
the accumulator holds the current segment reversed. -/
def splitNLAux : List Char → List Char → List (List Char)
  | [], cur => [cur.reverse]
  | c :: rest, cur =>
    if c = '\n' then cur.reverse :: splitNLAux rest []
    else splitNLAux rest (c :: cur)

/-- Python `program_text.split('\n')`. -/
def pySplitLines (s : String) : List String :=
  (splitNLAux s.data []).map (⟨·⟩)

/-- Python `str.strip()`: drop whitespace from both ends. -/
def pyStrip (s : String) : String :=
  ⟨((s.data.dropWhile isPySpace).reverse.dropWhile isPySpace).reverse⟩

/-- `parse_schedule_program(program_text, activity_title)`
(source lines 69-117). -/
def parse_schedule_program (program_text : String) (activity_title : Option String) :
    List Row :=
  if program_text.isEmpty then [] else
  let lines := ((pySplitLines program_text).map pyStrip).filter (fun l => !l.isEmpty)
  if lines.isEmpty then [] else
  let lines1 := if lines.head?.map pyLower == some "program" then lines.tail else lines
  let lines2 :=
    match activity_title with
    | some t =>
      if !t.isEmpty && (lines1.head?.map pyLower == some (pyLower t)) then lines1.tail
      else lines1
    | none => lines1
  parseLoop lines2 none none

/-- `matched_activity_titles` (source lines 132-136): the titles of the
records returned by `find_best_match` (at its default threshold 60) over
the schedule names; only membership in this collection is ever used. -/
def matched_titles (S : Scorers) (catalog : List Activity)
    (schedule_names : List String) : List String :=
  schedule_names.filterMap
    (fun q => (find_best_match S catalog q 60).1.map (·.title))

/-- `unmatched_activities` (source lines 138-140): the catalog names never
matched by any schedule name, in catalog order. -/
def unmatched_activities (S : Scorers) (catalog : List Activity)
    (schedule_names : List String) : List String :=
  (activity_names catalog).filter
    (fun n => !(matched_titles S catalog schedule_names).contains n)

/-- The score of an `extractOne` result, with `none` counting as 0. -/
def eScoreOf : Option (String × Nat) → Nat
  | none => 0
  | some p => p.2

/-- Scorers that return 0 on every pair: concrete instance for witnesses
whose claims do not depend on scorer values. -/
def zeroScorers : Scorers where
  ratio := fun _ _ => 0
  alignRatio := fun _ _ => 0
  tokenSortRatio := fun _ _ => 0
  tokenSetRatio := fun _ _ => 0

/-- Concrete scorer values mirroring rapidfuzz on the pairs that occur in
the threshold counterexample: for query "AB" and candidate "AB cd",
`fuzz.ratio = 57` (rounded), `fuzz.partial_ratio = 100` (window "AB"),
`fuzz.token_sort_ratio = 57`, `fuzz.token_set_ratio = 100`; "AB" and
"xxxxabxxxx" share no character case-sensitively, so every scorer gives 0
there, exactly as rapidfuzz does. -/
def exScorers : Scorers where
  ratio := fun q n => if q = "AB" ∧ n = "AB cd" then 57 else 0
  alignRatio := fun q n => if q = "AB" ∧ n = "AB cd" then 100 else 0
  tokenSortRatio := fun q n => if q = "AB" ∧ n = "AB cd" then 57 else 0
  tokenSetRatio := fun q n => if q = "AB" ∧ n = "AB cd" then 100 else 0

/-- Catalog for the threshold counterexample: the first title contains the
case-folded query "ab" but scores 0 (no case-sensitive overlap with "AB"),
the second contains it and scores 100. -/
def exCatalog : List Activity :=
  [⟨"xxxxabxxxx", 0⟩, ⟨"AB cd", 1⟩]

/-- Scorers for the best-effort witness: only the whole-string ratio of
query "qq" against "Wxyz" clears the threshold. -/
def beScorers : Scorers where
  ratio := fun q n => if q = "qq" ∧ n = "Wxyz" then 70 else 0
  alignRatio := fun _ _ => 0
  tokenSortRatio := fun _ _ => 0
  tokenSetRatio := fun _ _ => 0

/-- One-record catalog with no containment relation to the query "qq". -/
def beCatalog : List Activity :=
  [⟨"Wxyz", 0⟩]

/-- Catalog whose two titles are distinct strings but case-folded equal:
used to refute the unmatched-set claim for case-folded duplicate titles. -/
def dupCatalog : List Activity :=
  [⟨"Sauna", 0⟩, ⟨"SAUNA", 1⟩]

/-- Two-record catalog for the exact-stage witness. -/
def abCatalog : List Activity :=
  [⟨"Alpha", 0⟩, ⟨"Beta", 1⟩]

/-- Catalog with a literally duplicated title and distinct payloads. -/
def literalDupCatalog : List Activity :=
  [⟨"Sauna", 0⟩, ⟨"Sauna", 1⟩]

/-! ### Lemmas about the title → record map -/

theorem foldl_mapStep_isSome (key : String) (l : List Activity) (acc : Option Activity)
    (h : acc.isSome = true ∨ ∃ a ∈ l, a.title = key) :
    (l.foldl (mapStep key) acc).isSome = true := by
  induction l generalizing acc with
  | nil =>
    rcases h with h | ⟨a, ha, _⟩
    · exact h
    · cases ha
  | cons b l ih =>
    rw [List.foldl_cons]
    apply ih
    by_cases hb : b.title = key
    · left; simp [mapStep, hb]
    · rcases h with h | ⟨a, ha, hat⟩
      · left; simpa [mapStep, hb] using h
      · rcases List.mem_cons.mp ha with rfl | ha'
        · exact absurd hat hb
        · right; exact ⟨a, ha', hat⟩

theorem details_map_isSome (catalog : List Activity) (n : String)
    (h : n ∈ activity_names catalog) :
    (activity_details_map catalog n).isSome = true := by
  rcases List.mem_map.mp h with ⟨a, ha, hat⟩
  exact foldl_mapStep_isSome n catalog none (Or.inr ⟨a, ha, hat⟩)

theorem foldl_mapStep_title (key : String) (l : List Activity) (acc : Option Activity)
    (hacc : ∀ b, acc = some b → b.title = key) :
    ∀ a, l.foldl (mapStep key) acc = some a → a.title = key := by
  induction l generalizing acc with
  | nil => simpa using hacc
  | cons b l ih =>
    rw [List.foldl_cons]
    apply ih
    intro c hc
    by_cases hb : b.title = key
    · simp only [mapStep, if_pos hb] at hc
      cases hc
      exact hb
    · simp only [mapStep, if_neg hb] at hc
      exact hacc c hc

theorem details_map_title (catalog : List Activity) (key : String) (a : Activity)
    (h : activity_details_map catalog key = some a) : a.title = key :=
  foldl_mapStep_title key catalog none (by simp) a h

theorem foldl_mapStep_skip (key : String) (l : List Activity) (acc : Option Activity)
    (h : ∀ a ∈ l, a.title ≠ key) : l.foldl (mapStep key) acc = acc := by
  induction l generalizing acc with
  | nil => rfl
  | cons b l ih =>
    rw [List.foldl_cons]
    have hb : b.title ≠ key := h b (List.mem_cons_self b l)
    rw [show mapStep key acc b = acc from if_neg hb]
    exact ih acc (fun a ha => h a (List.mem_cons_of_mem b ha))

theorem details_map_last (key : String) (l₁ : List Activity) (b : Activity)
    (l₂ : List Activity) (hb : b.title = key) (h₂ : ∀ a ∈ l₂, a.title ≠ key) :
    activity_details_map (l₁ ++ b :: l₂) key = some b := by
  unfold activity_details_map
  rw [List.foldl_append, List.foldl_cons,
    show mapStep key (l₁.foldl (mapStep key) none) b = some b from if_pos hb]
  exact foldl_mapStep_skip key l₂ (some b) h₂

/-! ### Lemmas about the containment stage -/

theorem containmentStage_skip (S : Scorers) (catalog : List Activity) (q : String)
    (t : Nat) (ns rest : List String)
    (h : ∀ n ∈ ns, containsEither q n = true → containmentScore S q n < t) :
    containmentStage S catalog q t (ns ++ rest) = containmentStage S catalog q t rest := by
  induction ns with
  | nil => rfl
  | cons m ns ih =>
    rw [List.cons_append]
    by_cases hc : containsEither q m = true
    · have hlow : ¬ t ≤ containmentScore S q m :=
        Nat.not_le.mpr (h m (List.mem_cons_self m ns) hc)
      simp only [containmentStage, if_pos hc, if_neg hlow]
      exact ih (fun n hn => h n (List.mem_cons_of_mem m hn))
    · simp only [containmentStage, if_neg hc]
      exact ih (fun n hn => h n (List.mem_cons_of_mem m hn))

theorem containmentStage_none_of_low (S : Scorers) (catalog : List Activity)
    (q : String) (t : Nat) (ns : List String)
    (h : ∀ n ∈ ns, containmentScore S q n < t) :
    containmentStage S catalog q t ns = none := by
  induction ns with
  | nil => rfl
  | cons m ns ih =>
    have hlow : ¬ t ≤ containmentScore S q m :=
      Nat.not_le.mpr (h m (List.mem_cons_self m ns))
    by_cases hc : containsEither q m = true
    · simp only [containmentStage, if_pos hc, if_neg hlow]
      exact ih (fun n hn => h n (List.mem_cons_of_mem m hn))
    · simp only [containmentStage, if_neg hc]
      exact ih (fun n hn => h n (List.mem_cons_of_mem m hn))

theorem containmentStage_some_shape (S : Scorers) (catalog : List Activity)
    (q : String) (t : Nat) (ns : List String) (r : Option Activity × Nat)
    (h : containmentStage S catalog q t ns = some r) :
    ∃ n ∈ ns, r = (activity_details_map catalog n, containmentScore S q n) ∧
      containsEither q n = true ∧ t ≤ containmentScore S q n := by
  induction ns with
  | nil => cases h
  | cons m ns ih =>
    by_cases hc : containsEither q m = true
    · by_cases ht : t ≤ containmentScore S q m
      · simp only [containmentStage, if_pos hc, if_pos ht, Option.some.injEq] at h
        exact ⟨m, List.mem_cons_self m ns, h.symm, hc, ht⟩
      · simp only [containmentStage, if_pos hc, if_neg ht] at h
        rcases ih h with ⟨n, hn, hr, hcn, htn⟩
        exact ⟨n, List.mem_cons_of_mem m hn, hr, hcn, htn⟩
    · simp only [containmentStage, if_neg hc] at h
      rcases ih h with ⟨n, hn, hr, hcn, htn⟩
      exact ⟨n, List.mem_cons_of_mem m hn, hr, hcn, htn⟩

theorem containmentStage_none_mono (S : Scorers) (catalog : List Activity)
    (q : String) (t₁ t₂ : Nat) (hle : t₁ ≤ t₂) (ns : List String)
    (h : containmentStage S catalog q t₁ ns = none) :
    containmentStage S catalog q t₂ ns = none := by
  induction ns with
  | nil => rfl
  | cons m ns ih =>
    by_cases hc : containsEither q m = true
    · by_cases ht : t₁ ≤ containmentScore S q m
      · simp only [containmentStage, if_pos hc, if_pos ht] at h
        cases h
      · simp only [containmentStage, if_pos hc, if_neg ht] at h
        have ht₂ : ¬ t₂ ≤ containmentScore S q m :=
          fun h₂ => ht (le_trans hle h₂)
        simp only [containmentStage, if_pos hc, if_neg ht₂]
        exact ih h
    · simp only [containmentStage, if_neg hc] at h ⊢
      exact ih h

/-! ### Lemmas about extractOne -/

theorem foldl_extractStep_sound (f : String → String → Nat) (q : String) (t : Nat) :
    ∀ (ns : List String) (acc : Option (String × Nat)) (p : String × Nat),
      ns.foldl (extractStep f q t) acc = some p →
      acc = some p ∨ (p.1 ∈ ns ∧ p.2 = f q p.1 ∧ t ≤ p.2) := by
  intro ns
  induction ns with
  | nil => exact fun acc p h => Or.inl h
  | cons m ns ih =>
    intro acc p h
    rw [List.foldl_cons] at h
    rcases ih _ p h with hacc | ⟨hm, hs, ht⟩
    · cases acc with
      | none =>
        simp only [extractStep] at hacc
        by_cases hc : t ≤ f q m
        · rw [if_pos hc] at hacc
          cases hacc
          exact Or.inr ⟨List.mem_cons_self m ns, rfl, hc⟩
        · rw [if_neg hc] at hacc
          cases hacc
      | some best =>
        simp only [extractStep] at hacc
        by_cases hc : t ≤ f q m
        · rw [if_pos hc] at hacc
          by_cases hlt : best.2 < f q m
          · rw [if_pos hlt] at hacc
            cases hacc
            exact Or.inr ⟨List.mem_cons_self m ns, rfl, hc⟩
          · rw [if_neg hlt] at hacc
            exact Or.inl hacc
        · rw [if_neg hc] at hacc
          exact Or.inl hacc
    · exact Or.inr ⟨List.mem_cons_of_mem m hm, hs, ht⟩

theorem extractOne_sound (f : String → String → Nat) (q : String) (ns : List String)
    (t : Nat) (p : String × Nat) (h : extractOne f q ns t = some p) :
    p.1 ∈ ns ∧ p.2 = f q p.1 ∧ t ≤ p.2 := by
  rcases foldl_extractStep_sound f q t ns none p h with hacc | hgood
  · cases hacc
  · exact hgood

theorem foldl_extractStep_id_of_low (f : String → String → Nat) (q : String) (t : Nat)
    (ns : List String) (acc : Option (String × Nat))
    (h : ∀ n ∈ ns, f q n < t) :
    ns.foldl (extractStep f q t) acc = acc := by
  induction ns generalizing acc with
  | nil => rfl
  | cons m ns ih =>
    rw [List.foldl_cons]
    have hm : ¬ t ≤ f q m := Nat.not_le.mpr (h m (List.mem_cons_self m ns))
    have hstep : extractStep f q t acc m = acc := by
      cases acc with
      | none => simp only [extractStep, if_neg hm]
      | some best => simp only [extractStep, if_neg hm]
    rw [hstep]
    exact ih acc (fun n hn => h n (List.mem_cons_of_mem m hn))

theorem extractOne_none_of_low (f : String → String → Nat) (q : String)
    (ns : List String) (t : Nat) (h : ∀ n ∈ ns, f q n < t) :
    extractOne f q ns t = none :=
  foldl_extractStep_id_of_low f q t ns none h

theorem eScoreOf_extractStep_ge (f : String → String → Nat) (q : String) (t : Nat)
    (acc : Option (String × Nat)) (m : String) :
    eScoreOf acc ≤ eScoreOf (extractStep f q t acc m) := by
  cases acc with
  | none => exact Nat.zero_le _
  | some best =>
    by_cases hc : t ≤ f q m
    · by_cases hlt : best.2 < f q m
      · simp only [extractStep, if_pos hc, if_pos hlt, eScoreOf]
        exact le_of_lt hlt
      · simp only [extractStep, if_pos hc, if_neg hlt]
        exact le_refl _
    · simp only [extractStep, if_neg hc]
      exact le_refl _

theorem eScoreOf_foldl_extractStep_ge (f : String → String → Nat) (q : String)
    (t : Nat) (ns : List String) (acc : Option (String × Nat)) :
    eScoreOf acc ≤ eScoreOf (ns.foldl (extractStep f q t) acc) := by
  induction ns generalizing acc with
  | nil => exact le_refl _
  | cons m ns ih =>
    rw [List.foldl_cons]
    exact le_trans (eScoreOf_extractStep_ge f q t acc m) (ih _)

theorem foldl_extractStep_complete (f : String → String → Nat) (q : String) (t : Nat)
    (ns : List String) (acc : Option (String × Nat)) (n : String)
    (hn : n ∈ ns) (ht : t ≤ f q n) :
    f q n ≤ eScoreOf (ns.foldl (extractStep f q t) acc) := by
  induction ns generalizing acc with
  | nil => cases hn
  | cons m ns ih =>
    rw [List.foldl_cons]
    rcases List.mem_cons.mp hn with rfl | hn'
    · refine le_trans ?_ (eScoreOf_foldl_extractStep_ge f q t ns _)
      cases acc with
      | none =>
        simp only [extractStep, if_pos ht, eScoreOf]
        exact le_refl _
      | some best =>
        by_cases hlt : best.2 < f q n
        · simp only [extractStep, if_pos ht, if_pos hlt, eScoreOf]
          exact le_refl _
        · simp only [extractStep, if_pos ht, if_neg hlt, eScoreOf]
          exact Nat.le_of_not_lt hlt
    · exact ih _ hn'

theorem extractOne_escore_antitone (f : String → String → Nat) (q : String)
    (ns : List String) (t₁ t₂ : Nat) (hle : t₁ ≤ t₂) :
    eScoreOf (extractOne f q ns t₂) ≤ eScoreOf (extractOne f q ns t₁) := by
  cases h₂ : extractOne f q ns t₂ with
  | none => exact Nat.zero_le _
  | some p =>
    rcases extractOne_sound f q ns t₂ p h₂ with ⟨hmem, hval, hcut⟩
    have ht₁ : t₁ ≤ f q p.1 := le_trans hle (hval ▸ hcut)
    have := foldl_extractStep_complete f q t₁ ns none p.1 hmem ht₁
    simpa [eScoreOf, ← hval] using this

/-! ### Lemmas about the best-effort fold -/

theorem bestUpdate_of_le (catalog : List Activity) (acc : Option Activity × Nat)
    (r : Option (String × Nat)) (h : eScoreOf r ≤ acc.2) :
    bestUpdate catalog acc r = acc := by
  cases r with
  | none => rfl
  | some p =>
    obtain ⟨n, s⟩ := p
    simp only [bestUpdate]
    rw [if_neg (Nat.not_lt.mpr (by simpa [eScoreOf] using h))]

theorem bestUpdate_snd_ge (catalog : List Activity) (acc : Option Activity × Nat)
    (r : Option (String × Nat)) : acc.2 ≤ (bestUpdate catalog acc r).2 := by
  cases r with
  | none => exact le_refl _
  | some p =>
    obtain ⟨n, s⟩ := p
    simp only [bestUpdate]
    by_cases hlt : acc.2 < s
    · rw [if_pos hlt]
      exact le_of_lt hlt
    · rw [if_neg hlt]

theorem bestUpdate_snd_ge_escore (catalog : List Activity) (acc : Option Activity × Nat)
    (r : Option (String × Nat)) : eScoreOf r ≤ (bestUpdate catalog acc r).2 := by
  cases r with
  | none => exact Nat.zero_le _
  | some p =>
    obtain ⟨n, s⟩ := p
    simp only [bestUpdate, eScoreOf]
    by_cases hlt : acc.2 < s
    · rw [if_pos hlt]
    · rw [if_neg hlt]
      exact Nat.le_of_not_lt hlt

theorem foldl_bestStep_skip (catalog : List Activity) (q : String) (t : Nat)
    (fs : List (String → String → Nat)) (acc : Option Activity × Nat)
    (h : ∀ f ∈ fs, eScoreOf (extractOne f q (activity_names catalog) t) ≤ acc.2) :
    fs.foldl (bestStep catalog q t) acc = acc := by
  induction fs with
  | nil => rfl
  | cons g fs ih =>
    rw [List.foldl_cons,
      show bestStep catalog q t acc g = acc from
        bestUpdate_of_le catalog acc _ (h g (List.mem_cons_self g fs))]
    exact ih (fun f hf => h f (List.mem_cons_of_mem g hf))

theorem foldl_bestStep_snd_ge (catalog : List Activity) (q : String) (t : Nat)
    (fs : List (String → String → Nat)) (acc : Option Activity × Nat) :
    acc.2 ≤ (fs.foldl (bestStep catalog q t) acc).2 := by
  induction fs generalizing acc with
  | nil => exact le_refl _
  | cons g fs ih =>
    rw [List.foldl_cons]
    exact le_trans (bestUpdate_snd_ge catalog acc _) (ih _)

theorem foldl_bestStep_escore_le (catalog : List Activity) (q : String) (t : Nat)
    (fs : List (String → String → Nat)) (acc : Option Activity × Nat)
    (f : String → String → Nat) (hf : f ∈ fs) :
    eScoreOf (extractOne f q (activity_names catalog) t) ≤
      (fs.foldl (bestStep catalog q t) acc).2 := by
  induction fs generalizing acc with
  | nil => cases hf
  | cons g fs ih =>
    rw [List.foldl_cons]
    rcases List.mem_cons.mp hf with rfl | hf'
    · exact le_trans (bestUpdate_snd_ge_escore catalog acc _)
        (foldl_bestStep_snd_ge catalog q t fs _)
    · exact ih _ hf'

theorem bestStep_fst_isSome (catalog : List Activity) (q : String) (t : Nat)
    (acc : Option Activity × Nat) (f : String → String → Nat)
    (hacc : acc.1.isSome = true) :
    (bestStep catalog q t acc f).1.isSome = true := by
  unfold bestStep
  cases hE : extractOne f q (activity_names catalog) t with
  | none => exact hacc
  | some p =>
    obtain ⟨n, s⟩ := p
    have hmem : n ∈ activity_names catalog :=
      (extractOne_sound f q (activity_names catalog) t (n, s) hE).1
    simp only [bestUpdate]
    by_cases hlt : acc.2 < s
    · rw [if_pos hlt]
      exact details_map_isSome catalog n hmem
    · rw [if_neg hlt]
      exact hacc

theorem foldl_bestStep_fst_isSome (catalog : List Activity) (q : String) (t : Nat)
    (fs : List (String → String → Nat)) (acc : Option Activity × Nat)
    (hacc : acc.1.isSome = true) :
    (fs.foldl (bestStep catalog q t) acc).1.isSome = true := by
  induction fs generalizing acc with
  | nil => exact hacc
  | cons g fs ih =>
    rw [List.foldl_cons]
    exact ih _ (bestStep_fst_isSome catalog q t acc g hacc)

theorem foldl_bestStep_eq_of_fst_none (catalog : List Activity) (q : String) (t : Nat)
    (fs : List (String → String → Nat)) (acc : Option Activity × Nat)
    (hres : (fs.foldl (bestStep catalog q t) acc).1 = none) :
    fs.foldl (bestStep catalog q t) acc = acc := by
  induction fs generalizing acc with
  | nil => rfl
  | cons g fs ih =>
    rw [List.foldl_cons] at hres ⊢
    cases hE : extractOne g q (activity_names catalog) t with
    | none =>
      have hstep : bestStep catalog q t acc g = acc := by
        unfold bestStep
        rw [hE]
        rfl
      rw [hstep] at hres ⊢
      exact ih _ hres
    | some p =>
      obtain ⟨n, s⟩ := p
      by_cases hlt : acc.2 < s
      · exfalso
        have hmem : n ∈ activity_names catalog :=
          (extractOne_sound g q (activity_names catalog) t (n, s) hE).1
        have hstep : bestStep catalog q t acc g = (activity_details_map catalog n, s) := by
          unfold bestStep
          rw [hE]
          simp only [bestUpdate]
          rw [if_pos hlt]
        rw [hstep] at hres
        have hsome := foldl_bestStep_fst_isSome catalog q t fs
          (activity_details_map catalog n, s) (details_map_isSome catalog n hmem)
        rw [hres] at hsome
        cases hsome
      · have hstep : bestStep catalog q t acc g = acc := by
          unfold bestStep
          rw [hE]
          simp only [bestUpdate]
          rw [if_neg hlt]
        rw [hstep] at hres ⊢
        exact ih _ hres

theorem foldl_bestStep_lt (catalog : List Activity) (q : String) (t : Nat)
    (fs : List (String → String → Nat)) (acc : Option Activity × Nat) (s : Nat)
    (hacc : acc.2 < s)
    (h : ∀ g ∈ fs, eScoreOf (extractOne g q (activity_names catalog) t) < s) :
    (fs.foldl (bestStep catalog q t) acc).2 < s := by
  induction fs generalizing acc with
  | nil => exact hacc
  | cons g fs ih =>
    rw [List.foldl_cons]
    refine ih _ ?_ (fun g' hg' => h g' (List.mem_cons_of_mem g hg'))
    unfold bestStep
    cases hE : extractOne g q (activity_names catalog) t with
    | none => exact hacc
    | some p =>
      obtain ⟨n, s'⟩ := p
      have hs' : s' < s := by
        have := h g (List.mem_cons_self g fs)
        rw [hE] at this
        simpa [eScoreOf] using this
      simp only [bestUpdate]
      by_cases hlt : acc.2 < s'
      · rw [if_pos hlt]
        exact hs'
      · rw [if_neg hlt]
        exact hacc

theorem foldl_bestStep_win (catalog : List Activity) (q : String) (t : Nat)
    (pre post : List (String → String → Nat)) (f : String → String → Nat)
    (acc : Option Activity × Nat) (n : String) (s : Nat)
    (hE : extractOne f q (activity_names catalog) t = some (n, s))
    (hpre : ∀ g ∈ pre, eScoreOf (extractOne g q (activity_names catalog) t) < s)
    (hpost : ∀ g ∈ post, eScoreOf (extractOne g q (activity_names catalog) t) ≤ s)
    (hacc : acc.2 < s) :
    (pre ++ f :: post).foldl (bestStep catalog q t) acc =
      (activity_details_map catalog n, s) := by
  rw [List.foldl_append, List.foldl_cons]
  have h1 : (pre.foldl (bestStep catalog q t) acc).2 < s :=
    foldl_bestStep_lt catalog q t pre acc s hacc hpre
  have h2 : bestStep catalog q t (pre.foldl (bestStep catalog q t) acc) f =
      (activity_details_map catalog n, s) := by
    show bestUpdate catalog (pre.foldl (bestStep catalog q t) acc)
      (extractOne f q (activity_names catalog) t) = _
    rw [hE]
    simp only [bestUpdate]
    rw [if_pos h1]
  rw [h2]
  exact foldl_bestStep_skip catalog q t post _ hpost

/-! ### Stage-selection lemmas for find_best_match -/

theorem find_best_match_exact_eq (S : Scorers) (catalog : List Activity) (q : String)
    (t : Nat) (n₀ : String)
    (h : (activity_names catalog).find? (fun n => pyLower q == pyLower n) = some n₀) :
    find_best_match S catalog q t = (activity_details_map catalog n₀, 100) := by
  unfold find_best_match
  rw [h]

theorem find_best_match_cont_eq (S : Scorers) (catalog : List Activity) (q : String)
    (t : Nat) (r : Option Activity × Nat)
    (hexact : (activity_names catalog).find? (fun n => pyLower q == pyLower n) = none)
    (hcont : containmentStage S catalog q t (activity_names catalog) = some r) :
    find_best_match S catalog q t = r := by
  unfold find_best_match
  rw [hexact, hcont]

theorem find_best_match_best_eq (S : Scorers) (catalog : List Activity) (q : String)
    (t : Nat)
    (hexact : (activity_names catalog).find? (fun n => pyLower q == pyLower n) = none)
    (hcont : containmentStage S catalog q t (activity_names catalog) = none) :
    find_best_match S catalog q t = bestEffortStage S catalog q t := by
  unfold find_best_match
  rw [hexact, hcont]

theorem find_best_match_fst_none_parts (S : Scorers) (catalog : List Activity)
    (q : String) (t : Nat) (h : (find_best_match S catalog q t).1 = none) :
    (activity_names catalog).find? (fun n => pyLower q == pyLower n) = none ∧
    containmentStage S catalog q t (activity_names catalog) = none ∧
    bestEffortStage S catalog q t = (none, 0) ∧
    find_best_match S catalog q t = (none, 0) := by
  cases hfind : (activity_names catalog).find? (fun n => pyLower q == pyLower n) with
  | some n =>
    exfalso
    have hsome := details_map_isSome catalog n (List.mem_of_find?_eq_some hfind)
    rw [find_best_match_exact_eq S catalog q t n hfind] at h
    have h' : activity_details_map catalog n = none := h
    rw [h'] at hsome
    cases hsome
  | none =>
    cases hcont : containmentStage S catalog q t (activity_names catalog) with
    | some r =>
      exfalso
      rcases containmentStage_some_shape S catalog q t (activity_names catalog) r hcont
        with ⟨n, hn, hr, -, -⟩
      have hsome := details_map_isSome catalog n hn
      rw [find_best_match_cont_eq S catalog q t r hfind hcont, hr] at h
      have h' : activity_details_map catalog n = none := h
      rw [h'] at hsome
      cases hsome
    | none =>
      have heq := find_best_match_best_eq S catalog q t hfind hcont
      rw [heq] at h
      unfold bestEffortStage at h
      have hbe := foldl_bestStep_eq_of_fst_none catalog q t (scorerList S) (none, 0) h
      refine ⟨rfl, rfl, ?_, ?_⟩
      · show (scorerList S).foldl (bestStep catalog q t) (none, 0) = (none, 0)
        exact hbe
      · rw [heq]
        show (scorerList S).foldl (bestStep catalog q t) (none, 0) = (none, 0)
        exact hbe

theorem pyLower_empty_iff (n : String) : pyLower n = "" ↔ n = "" := by
  constructor
  · intro h
    have hd : n.data.map pyCharLower = [] := congrArg String.data h
    have hnil : n.data = [] := List.map_eq_nil_iff.mp hd
    cases n
    simp_all
  · intro h
    rw [h]
    rfl

/-! ### Claim theorems: the matcher -/

/-- C3: Exact stage: for every query whose case-folded form equals the
case-folded title of at least one entry in the index's ordered name
sequence, `resolve` returns score exactly 100 together with the record
mapped to the first such title in catalog order; the containment and
best-effort stages never run (the result does not depend on the scorers or
the threshold), and the equality test is case-folded string equality only. -/
theorem exact_stage_first_case_fold_match (S : Scorers) (catalog : List Activity)
    (q : String) (t : Nat) (ns₁ ns₂ : List String) (n₀ : String)
    (hns : activity_names catalog = ns₁ ++ n₀ :: ns₂)
    (hfirst : ∀ n ∈ ns₁, pyLower q ≠ pyLower n)
    (heq : pyLower q = pyLower n₀) :
    find_best_match S catalog q t = (activity_details_map catalog n₀, 100) := by
  apply find_best_match_exact_eq
  rw [hns, List.find?_append]
  have h1 : ns₁.find? (fun n => pyLower q == pyLower n) = none :=
    List.find?_eq_none.mpr (fun n hn => by simpa using hfirst n hn)
  rw [h1, List.find?_cons_of_pos _ (by simpa using heq)]
  rfl

theorem exact_stage_first_case_fold_match_witness :
    find_best_match zeroScorers abCatalog "beta" 77 =
      (activity_details_map abCatalog "Beta", 100) :=
  exact_stage_first_case_fold_match zeroScorers abCatalog "beta" 77 ["Alpha"] [] "Beta"
    (by decide) (by decide) (by decide)

/-- C1: the containment stage is greedy and order-dependent: if the query
has no case-folded exact match, every candidate before `a` in catalog order
either fails the mutual-containment test or scores below the threshold
(and is skipped, not returned), and `a` passes the containment test with a
score at or above the threshold, then `resolve` returns `a`'s record with
`a`'s containment score — regardless of any later candidate, even one that
also contains the query with a numerically higher score. -/
theorem containment_stage_greedy (S : Scorers) (catalog : List Activity) (q : String)
    (t : Nat) (pre post : List Activity) (a : Activity)
    (hcat : catalog = pre ++ a :: post)
    (hnoexact : ∀ n ∈ activity_names catalog, pyLower q ≠ pyLower n)
    (hskip : ∀ n ∈ activity_names pre,
      containsEither q n = true → containmentScore S q n < t)
    (hcont : containsEither q a.title = true)
    (hscore : t ≤ containmentScore S q a.title)
    (hlast : a.title ∉ activity_names post) :
    find_best_match S catalog q t = (some a, containmentScore S q a.title) := by
  have hexact : (activity_names catalog).find? (fun n => pyLower q == pyLower n) = none :=
    List.find?_eq_none.mpr (fun n hn => by simpa using hnoexact n hn)
  have hnames : activity_names catalog =
      activity_names pre ++ a.title :: activity_names post := by
    rw [hcat]
    simp [activity_names]
  have hstage : containmentStage S catalog q t (activity_names catalog) =
      some (activity_details_map catalog a.title, containmentScore S q a.title) := by
    rw [hnames, containmentStage_skip S catalog q t _ _ hskip]
    simp only [containmentStage, if_pos hcont, if_pos hscore]
  have hmap : activity_details_map catalog a.title = some a := by
    rw [hcat]
    exact details_map_last a.title pre a post rfl
      (fun b hb hbt => hlast (hbt ▸ List.mem_map_of_mem _ hb))
  rw [find_best_match_cont_eq S catalog q t _ hexact hstage, hmap]

theorem containment_stage_greedy_witness :
    find_best_match exScorers exCatalog "AB" 60 =
      (some ⟨"AB cd", 1⟩, containmentScore exScorers "AB" "AB cd") :=
  containment_stage_greedy exScorers exCatalog "AB" 60 [⟨"xxxxabxxxx", 0⟩] []
    ⟨"AB cd", 1⟩ rfl (by decide) (by decide) (by decide) (by decide) (by decide)

/-- C2 counterexample: lowering the threshold CAN decrease the score of a
returned match. With the catalog ["xxxxabxxxx", "AB cd"] and query "AB"
(scorer values exactly as rapidfuzz computes them on these strings), both
thresholds produce a match, but the match returned at threshold 0 scores
strictly lower (0) than the one returned at threshold 60 (100): the greedy
containment stage accepts the earlier, lower-scoring candidate once the
threshold drops. -/
theorem threshold_lowering_decreases_score_cex :
    (find_best_match exScorers exCatalog "AB" 60).1.isSome = true ∧
    (find_best_match exScorers exCatalog "AB" 0).1.isSome = true ∧
    (find_best_match exScorers exCatalog "AB" 0).2 <
      (find_best_match exScorers exCatalog "AB" 60).2 := by
  decide

/-- C2 (amended): raising the threshold never turns a non-match into a
match: for thresholds t₁ ≤ t₂, if `resolve` returns the no-match result at
t₁ then it returns {none, 0} at t₂ as well. (The other half of the original
claim — that lowering the threshold never decreases the returned score —
is false; see the counterexample.) -/
theorem threshold_raising_no_new_match (S : Scorers) (catalog : List Activity)
    (q : String) (t₁ t₂ : Nat) (hle : t₁ ≤ t₂)
    (hnone : (find_best_match S catalog q t₁).1 = none) :
    find_best_match S catalog q t₂ = (none, 0) := by
  rcases find_best_match_fst_none_parts S catalog q t₁ hnone with ⟨hfind, hcont₁, hbe₁, -⟩
  have hcont₂ := containmentStage_none_mono S catalog q t₁ t₂ hle _ hcont₁
  have hzero : ∀ f ∈ scorerList S,
      eScoreOf (extractOne f q (activity_names catalog) t₁) = 0 := by
    intro f hf
    have h1 := foldl_bestStep_escore_le catalog q t₁ (scorerList S) (none, 0) f hf
    have h2 : (scorerList S).foldl (bestStep catalog q t₁) (none, 0) = (none, 0) := hbe₁
    rw [h2] at h1
    exact Nat.le_zero.mp h1
  rw [find_best_match_best_eq S catalog q t₂ hfind hcont₂]
  show (scorerList S).foldl (bestStep catalog q t₂) (none, 0) = (none, 0)
  apply foldl_bestStep_skip
  intro f hf
  calc eScoreOf (extractOne f q (activity_names catalog) t₂)
      ≤ eScoreOf (extractOne f q (activity_names catalog) t₁) :=
        extractOne_escore_antitone f q _ t₁ t₂ hle
    _ = 0 := hzero f hf

theorem threshold_raising_no_new_match_witness :
    find_best_match zeroScorers beCatalog "qq" 60 = (none, 0) :=
  threshold_raising_no_new_match zeroScorers beCatalog "qq" 50 60 (by decide) (by decide)

/-- C4: best-effort stage contract: when neither the exact nor the
containment stage returns, `resolve` equals the four-scorer fold; if no
scorer's `extractOne` produces a qualifying candidate the result is
{none, 0}; and if some scorer `f` (at position `pre.length` in the fixed
scorer order) finds a candidate whose positive score strictly exceeds every
earlier scorer's best and is at least every later scorer's best, that
scorer's result is returned — ties across scorers keep the result of the
scorer that ran first, because the comparison is strict greater-than. -/
theorem best_effort_stage_contract (S : Scorers) (catalog : List Activity)
    (q : String) (t : Nat)
    (hexact : (activity_names catalog).find? (fun n => pyLower q == pyLower n) = none)
    (hcont : containmentStage S catalog q t (activity_names catalog) = none) :
    find_best_match S catalog q t = bestEffortStage S catalog q t ∧
    ((∀ f ∈ scorerList S, extractOne f q (activity_names catalog) t = none) →
      find_best_match S catalog q t = (none, 0)) ∧
    (∀ (pre post : List (String → String → Nat)) (f : String → String → Nat)
        (n : String) (s : Nat),
      scorerList S = pre ++ f :: post →
      extractOne f q (activity_names catalog) t = some (n, s) →
      0 < s →
      (∀ g ∈ pre, eScoreOf (extractOne g q (activity_names catalog) t) < s) →
      (∀ g ∈ post, eScoreOf (extractOne g q (activity_names catalog) t) ≤ s) →
      find_best_match S catalog q t = (activity_details_map catalog n, s)) := by
  have heq := find_best_match_best_eq S catalog q t hexact hcont
  refine ⟨heq, ?_, ?_⟩
  · intro hall
    rw [heq]
    show (scorerList S).foldl (bestStep catalog q t) (none, 0) = (none, 0)
    apply foldl_bestStep_skip
    intro f hf
    rw [hall f hf]
    exact Nat.le_refl 0
  · intro pre post f n s hsl hE hs hpre hpost
    rw [heq]
    show (scorerList S).foldl (bestStep catalog q t) (none, 0) = _
    rw [hsl]
    exact foldl_bestStep_win catalog q t pre post f (none, 0) n s hE hpre hpost hs

theorem best_effort_stage_contract_witness :
    find_best_match beScorers beCatalog "qq" 60 =
      (activity_details_map beCatalog "Wxyz", 70) :=
  (best_effort_stage_contract beScorers beCatalog "qq" 60 (by decide) (by decide)).2.2
    [] [beScorers.alignRatio, beScorers.tokenSortRatio, beScorers.tokenSetRatio]
    beScorers.ratio "Wxyz" 70 rfl (by decide) (by decide) (by decide) (by decide)

/-- C9: `resolve` raises no error: a no-match is the normal {none, 0}
result (whenever the record component is none the score is 0), and — for
scorers that give an empty query score 0 everywhere, as rapidfuzz does —
the empty-string query on a catalog of non-empty titles returns {none, 0}
at the default threshold 60, losing every stage even though the empty
string is a substring of every candidate title. -/
theorem resolve_no_failure :
    (∀ (S : Scorers) (catalog : List Activity) (q : String) (t : Nat),
      (find_best_match S catalog q t).1 = none →
      find_best_match S catalog q t = (none, 0)) ∧
    (∀ (S : Scorers) (catalog : List Activity),
      (∀ a ∈ catalog, a.title ≠ "") →
      (∀ f ∈ scorerList S, ∀ n, f "" n = 0) →
      find_best_match S catalog "" 60 = (none, 0)) := by
  constructor
  · intro S catalog q t h
    exact (find_best_match_fst_none_parts S catalog q t h).2.2.2
  · intro S catalog htitle hS
    have hrat : S.ratio ∈ scorerList S := by simp [scorerList]
    have halign : S.alignRatio ∈ scorerList S := by simp [scorerList]
    have hsort : S.tokenSortRatio ∈ scorerList S := by simp [scorerList]
    have hexact : (activity_names catalog).find?
        (fun n => pyLower "" == pyLower n) = none := by
      apply List.find?_eq_none.mpr
      intro n hn
      rcases List.mem_map.mp hn with ⟨a, ha, rfl⟩
      simp only [beq_iff_eq]
      intro heq
      exact htitle a ha ((pyLower_empty_iff a.title).mp heq.symm)
    have hcont : containmentStage S catalog "" 60 (activity_names catalog) = none := by
      apply containmentStage_none_of_low
      intro n hn
      simp [containmentScore, hS S.ratio hrat n, hS S.alignRatio halign n,
        hS S.tokenSortRatio hsort n]
    rw [find_best_match_best_eq S catalog "" 60 hexact hcont]
    show (scorerList S).foldl (bestStep catalog "" 60) (none, 0) = (none, 0)
    apply foldl_bestStep_skip
    intro f hf
    rw [extractOne_none_of_low f "" (activity_names catalog) 60
      (fun n _ => by rw [hS f hf n]; decide)]
    exact Nat.le_refl 0

theorem resolve_no_failure_witness :
    find_best_match zeroScorers abCatalog "" 60 = (none, 0) ∧
    find_best_match zeroScorers beCatalog "qq" 60 = (none, 0) :=
  ⟨resolve_no_failure.2 zeroScorers abCatalog (by decide)
      (by intro f hf n; fin_cases hf <;> rfl),
   resolve_no_failure.1 zeroScorers beCatalog "qq" 60 (by decide)⟩

/-- C10: duplicate catalog titles: when two records `a` (earlier) and `b`
(later, and last with that title) share the same title, both occurrences
remain in the ordered name sequence, but the title → record mapping keeps
the later record, so a query case-folded-equal to that title (with no
earlier case-folded match) returns the later record `b` with score 100,
never the earlier duplicate. -/
theorem duplicate_title_later_record (S : Scorers) (catalog : List Activity)
    (q : String) (t : Nat) (pre mid post : List Activity) (a b : Activity)
    (hcat : catalog = pre ++ a :: (mid ++ b :: post))
    (htitle : a.title = b.title)
    (hq : pyLower q = pyLower a.title)
    (hpre : ∀ n ∈ activity_names pre, pyLower q ≠ pyLower n)
    (hpost : b.title ∉ activity_names post) :
    find_best_match S catalog q t = (some b, 100) := by
  have hfind : (activity_names catalog).find?
      (fun n => pyLower q == pyLower n) = some a.title := by
    rw [hcat]
    simp only [activity_names, List.map_append, List.map_cons]
    rw [List.find?_append]
    have h1 : ((pre.map (·.title)).find? (fun n => pyLower q == pyLower n)) = none :=
      List.find?_eq_none.mpr (fun n hn => by
        simpa using hpre n (by simpa [activity_names] using hn))
    rw [h1, List.find?_cons_of_pos _ (by simpa using hq)]
    rfl
  have hmap : activity_details_map catalog a.title = some b := by
    rw [hcat, htitle]
    have hassoc : pre ++ a :: (mid ++ b :: post) = (pre ++ a :: mid) ++ b :: post := by
      simp
    rw [hassoc]
    exact details_map_last b.title (pre ++ a :: mid) b post rfl
      (fun c hc hct => hpost (hct ▸ List.mem_map_of_mem _ hc))
  rw [find_best_match_exact_eq S catalog q t a.title hfind, hmap]

theorem duplicate_title_later_record_witness :
    find_best_match zeroScorers literalDupCatalog "SAUNA" 60 =
      (some ⟨"Sauna", 1⟩, 100) :=
  duplicate_title_later_record zeroScorers literalDupCatalog "SAUNA" 60 [] [] []
    ⟨"Sauna", 0⟩ ⟨"Sauna", 1⟩ rfl rfl (by decide) (by decide) (by decide)

/-! ### Character-class lemmas for the line classifier -/

theorem pyCharLower_eq_self (c : Char) (h : c.toNat < 65) : pyCharLower c = c := by
  have h1 : c ≠ 'Ă' := by rintro rfl; exact absurd h (by decide)
  have h2 : c ≠ 'Ș' := by rintro rfl; exact absurd h (by decide)
  have h3 : c ≠ 'Ț' := by rintro rfl; exact absurd h (by decide)
  unfold pyCharLower
  rw [if_neg (by omega), if_neg (by omega), if_neg h1, if_neg h2, if_neg h3]

theorem isDigit_toNat_lt (c : Char) (h : c.isDigit = true) : c.toNat < 65 := by
  simp [Char.isDigit] at h
  have h2 : c.val.toNat ≤ (57 : UInt32).toNat := h.2
  have h3 : (57 : UInt32).toNat = 57 := rfl
  have h4 : c.toNat = c.val.toNat := rfl
  omega

theorem timeOK_toNat_lt (c : Char) (h : timeOK c = true) : c.toNat < 65 := by
  simp only [timeOK, Bool.or_eq_true] at h
  rcases h with ((hd | hc) | hm) | hs
  · exact isDigit_toNat_lt c hd
  · rw [show c = ':' from by simpa using hc]
    decide
  · rw [show c = '-' from by simpa using hm]
    decide
  · simp only [isPySpace, Bool.or_eq_true] at hs
    rcases hs with ((((h1 | h2) | h3) | h4) | h5) | h6
    · rw [show c = ' ' from by simpa using h1]; decide
    · rw [show c = '\t' from by simpa using h2]; decide
    · rw [show c = '\n' from by simpa using h3]; decide
    · rw [show c = '\r' from by simpa using h4]; decide
    · rw [show c = '\x0b' from by simpa using h5]; decide
    · rw [show c = '\x0c' from by simpa using h6]; decide

theorem timeOK_pyCharLower (c : Char) (h : timeOK c = true) :
    timeOK (pyCharLower c) = true := by
  rw [pyCharLower_eq_self c (timeOK_toNat_lt c h)]
  exact h

/-! ### What the time-line matcher consumes -/

theorem consume_expectChar (ch : Char) (cs r : List Char)
    (h : expectChar ch cs = some r) : cs = ch :: r := by
  cases cs with
  | nil => cases h
  | cons d rest =>
    simp only [expectChar] at h
    by_cases hd : d = ch
    · rw [if_pos hd] at h
      cases h
      rw [hd]
    · rw [if_neg hd] at h
      cases h

theorem consume_take1or2Digits (cs r : List Char) (h : take1or2Digits cs = some r) :
    ∃ p, cs = p ++ r ∧ ∀ c ∈ p, timeOK c = true := by
  cases cs with
  | nil => cases h
  | cons c rest =>
    cases rest with
    | nil =>
      simp only [take1or2Digits] at h
      by_cases hc : c.isDigit = true
      · rw [if_pos hc] at h
        cases h
        exact ⟨[c], rfl, by simp [timeOK, hc]⟩
      · rw [if_neg hc] at h
        cases h
    | cons d rest2 =>
      simp only [take1or2Digits] at h
      by_cases hc : c.isDigit = true
      · rw [if_pos hc] at h
        by_cases hd : d.isDigit = true
        · rw [if_pos hd] at h
          cases h
          exact ⟨[c, d], rfl, by simp [timeOK, hc, hd]⟩
        · rw [if_neg hd] at h
          cases h
          exact ⟨[c], rfl, by simp [timeOK, hc]⟩
      · rw [if_neg hc] at h
        cases h

theorem consume_take2Digits (cs r : List Char) (h : take2Digits cs = some r) :
    ∃ p, cs = p ++ r ∧ ∀ c ∈ p, timeOK c = true := by
  cases cs with
  | nil => cases h
  | cons c1 rest =>
    cases rest with
    | nil => cases h
    | cons c2 rest2 =>
      simp only [take2Digits] at h
      by_cases hb : (c1.isDigit && c2.isDigit) = true
      · rw [if_pos hb] at h
        cases h
        rcases (by simpa using hb : c1.isDigit = true ∧ c2.isDigit = true) with ⟨h1, h2⟩
        exact ⟨[c1, c2], rfl, by simp [timeOK, h1, h2]⟩
      · rw [if_neg hb] at h
        cases h

theorem consume_dropSpaces (cs : List Char) :
    ∃ p, cs = p ++ dropSpaces cs ∧ ∀ c ∈ p, timeOK c = true :=
  ⟨cs.takeWhile isPySpace, (List.takeWhile_append_dropWhile isPySpace cs).symm,
    fun c hc => by simp [timeOK, List.mem_takeWhile_imp hc]⟩

theorem consume_hhmm (cs r : List Char) (h : hhmm cs = some r) :
    ∃ p, cs = p ++ r ∧ ∀ c ∈ p, timeOK c = true := by
  unfold hhmm at h
  cases h1 : take1or2Digits cs with
  | none => rw [h1] at h; cases h
  | some r1 =>
    rw [h1, Option.some_bind] at h
    cases h2 : expectChar ':' r1 with
    | none => rw [h2] at h; cases h
    | some r2 =>
      rw [h2, Option.some_bind] at h
      rcases consume_take1or2Digits cs r1 h1 with ⟨p1, he1, hp1⟩
      have he2 : r1 = ':' :: r2 := consume_expectChar ':' r1 r2 h2
      rcases consume_take2Digits r2 r h with ⟨p2, he3, hp2⟩
      refine ⟨p1 ++ ':' :: p2, ?_, ?_⟩
      · rw [he1, he2, he3]
        simp
      · intro c hc
        rcases List.mem_append.mp hc with hc1 | hc2
        · exact hp1 c hc1
        · rcases List.mem_cons.mp hc2 with rfl | hc3
          · decide
          · exact hp2 c hc3

theorem is_time_line_chars (l : String) (h : is_time_line l = true) :
    ∀ c ∈ l.data, timeOK c = true := by
  unfold is_time_line at h
  cases h1 : hhmm l.data with
  | none => rw [h1] at h; cases h
  | some rest =>
    rw [h1] at h
    rcases consume_hhmm l.data rest h1 with ⟨p1, he1, hp1⟩
    simp only [Bool.or_eq_true] at h
    rcases h with hempty | hsecond
    · have hr : rest = [] := by
        cases rest with
        | nil => rfl
        | cons x xs => cases hempty
      intro c hc
      rw [he1, hr, List.append_nil] at hc
      exact hp1 c hc
    · cases h2 : expectChar '-' (dropSpaces rest) with
      | none =>
        rw [h2] at hsecond
        cases hsecond
      | some r2 =>
        rw [h2, Option.some_bind] at hsecond
        cases h3 : hhmm (dropSpaces r2) with
        | none =>
          rw [h3] at hsecond
          cases hsecond
        | some rr =>
          rw [h3] at hsecond
          cases rr with
          | cons x xs => cases hsecond
          | nil =>
            rcases consume_dropSpaces rest with ⟨ps1, hes1, hps1⟩
            have he2 : dropSpaces rest = '-' :: r2 :=
              consume_expectChar '-' (dropSpaces rest) r2 h2
            rcases consume_dropSpaces r2 with ⟨ps2, hes2, hps2⟩
            rcases consume_hhmm (dropSpaces r2) [] h3 with ⟨p2, he3, hp2⟩
            rw [List.append_nil] at he3
            intro c hc
            rw [he1, hes1, he2, hes2, he3] at hc
            rcases List.mem_append.mp hc with hc1 | hc2
            · exact hp1 c hc1
            · rcases List.mem_append.mp hc2 with hc3 | hc4
              · exact hps1 c hc3
              · rcases List.mem_cons.mp hc4 with rfl | hc5
                · decide
                · rcases List.mem_append.mp hc5 with hc6 | hc7
                  · exact hps2 c hc6
                  · exact hp2 c hc7

theorem not_days_of_timeChars (l : String) (hl : ∀ c ∈ l.data, timeOK c = true) :
    is_days_line l = false := by
  have hall : ∀ c ∈ (pyLower l).data, timeOK c = true := by
    intro c hc
    rcases List.mem_map.mp hc with ⟨c0, hc0, rfl⟩
    exact timeOK_pyCharLower c0 (hl c0 hc0)
  apply List.any_eq_false.mpr
  intro tok htok hcontains
  have hinf : tok.data <:+: (pyLower l).data := of_decide_eq_true hcontains
  have hsub : tok.data ⊆ (pyLower l).data := hinf.sublist.subset
  fin_cases htok
  · exact absurd (hall 'l' (hsub (by decide))) (by decide)
  · exact absurd (hall 'm' (hsub (by decide))) (by decide)
  · exact absurd (hall 'm' (hsub (by decide))) (by decide)
  · exact absurd (hall 'm' (hsub (by decide))) (by decide)
  · exact absurd (hall 'j' (hsub (by decide))) (by decide)
  · exact absurd (hall 'v' (hsub (by decide))) (by decide)
  · exact absurd (hall 's' (hsub (by decide))) (by decide)
  · exact absurd (hall 's' (hsub (by decide))) (by decide)
  · exact absurd (hall 'd' (hsub (by decide))) (by decide)
  · exact absurd (hall 'd' (hsub (by decide))) (by decide)

theorem time_not_days (l : String) (h : is_time_line l = true) :
    is_days_line l = false :=
  not_days_of_timeChars l (is_time_line_chars l h)

/-- C5: classifier priority: the source's classification order (days-line
first) is extensionally the specification's order (time-line first, days
only if not time, otherwise location), because no line can satisfy both
predicates; in particular a line matching the time pattern is never
classified as a days line or a location line. -/
theorem classifier_time_priority_equiv (l : String) :
    classifyLine l = classifyLineSpec l ∧
    (is_time_line l = true → classifyLine l = LineKind.time) := by
  constructor
  · by_cases ht : is_time_line l = true
    · have hd := time_not_days l ht
      simp [classifyLine, classifyLineSpec, ht, hd]
    · by_cases hd : is_days_line l = true <;>
        simp [classifyLine, classifyLineSpec, ht, hd]
  · intro ht
    have hd := time_not_days l ht
    simp [classifyLine, ht, hd]

theorem classifier_time_priority_equiv_witness :
    classifyLine "18:00 - 19:30" = classifyLineSpec "18:00 - 19:30" ∧
    classifyLine "18:00 - 19:30" = LineKind.time :=
  ⟨(classifier_time_priority_equiv "18:00 - 19:30").1,
   (classifier_time_priority_equiv "18:00 - 19:30").2 (by decide)⟩

/-! ### Parse-loop invariants -/

theorem classifyLine_location_iff (l : String) :
    classifyLine l = LineKind.location ↔
      is_days_line l = false ∧ is_time_line l = false := by
  unfold classifyLine
  by_cases hd : is_days_line l = true
  · simp [hd]
  · by_cases ht : is_time_line l = true <;> simp [hd, ht]

theorem parseLoop_times_sublist :
    ∀ (lines : List String) (d loc : Option String),
      ((parseLoop lines d loc).map Row.time).Sublist
        (lines.filter (fun l => decide (classifyLine l = LineKind.time))) := by
  intro lines
  induction lines with
  | nil =>
    intro d loc
    simp [parseLoop]
  | cons line rest ih =>
    intro d loc
    by_cases hd : is_days_line line = true
    · have hcl : ¬ classifyLine line = LineKind.time := by simp [classifyLine, hd]
      rw [List.filter_cons_of_neg (by simpa using hcl)]
      simp only [parseLoop, if_pos hd]
      exact ih (some line) none
    · by_cases ht : is_time_line line = true
      · have hcl : classifyLine line = LineKind.time := by simp [classifyLine, hd, ht]
        rw [List.filter_cons_of_pos (by simpa using hcl)]
        simp only [parseLoop, if_neg hd, if_pos ht]
        by_cases hloc : truthy loc = true
        · rw [if_pos hloc, List.map_cons]
          exact (ih d none).cons₂ line
        · rw [if_neg hloc]
          exact (ih d loc).cons line
      · have hcl : ¬ classifyLine line = LineKind.time := by simp [classifyLine, hd, ht]
        rw [List.filter_cons_of_neg (by simpa using hcl)]
        simp only [parseLoop, if_neg hd, if_neg ht]
        exact ih d (some line)

theorem parseLoop_trailing_location (ls : List String) (l : String)
    (hl : classifyLine l = LineKind.location) :
    ∀ d loc, parseLoop (ls ++ [l]) d loc = parseLoop ls d loc := by
  obtain ⟨hd, ht⟩ := (classifyLine_location_iff l).mp hl
  induction ls with
  | nil =>
    intro d loc
    simp [parseLoop, hd, ht]
  | cons m ms ih =>
    intro d loc
    rw [List.cons_append]
    by_cases hdm : is_days_line m = true
    · simp only [parseLoop, if_pos hdm]
      exact ih (some m) none
    · by_cases htm : is_time_line m = true
      · simp only [parseLoop, if_neg hdm, if_pos htm]
        by_cases hloc : truthy loc = true
        · rw [if_pos hloc, if_pos hloc, ih d none]
        · rw [if_neg hloc, if_neg hloc, ih d loc]
      · simp only [parseLoop, if_neg hdm, if_neg htm]
        exact ih d (some m)

theorem parseLoop_location_before_days (ls : List String) (l dl : String)
    (rest : List String) (hl : classifyLine l = LineKind.location)
    (hdl : is_days_line dl = true) :
    ∀ d loc, parseLoop (ls ++ l :: dl :: rest) d loc =
      parseLoop (ls ++ dl :: rest) d loc := by
  obtain ⟨hd, ht⟩ := (classifyLine_location_iff l).mp hl
  induction ls with
  | nil =>
    intro d loc
    simp [parseLoop, hd, ht, hdl]
  | cons m ms ih =>
    intro d loc
    rw [List.cons_append, List.cons_append]
    by_cases hdm : is_days_line m = true
    · simp only [parseLoop, if_pos hdm]
      exact ih (some m) none
    · by_cases htm : is_time_line m = true
      · simp only [parseLoop, if_neg hdm, if_pos htm]
        by_cases hloc : truthy loc = true
        · rw [if_pos hloc, if_pos hloc, ih d none]
        · rw [if_neg hloc, if_neg hloc, ih d loc]
      · simp only [parseLoop, if_neg hdm, if_neg htm]
        exact ih d (some m)

/-- C6: parser emission invariant: (1) the time fields of the emitted rows
form a subsequence of the time-classified lines in source order — rows are
emitted only at time lines and output order equals the source order of the
triggering time lines; (2) a location line dangling at end of input
contributes zero rows; (3) a location line immediately followed by a
days-line contributes zero rows (the days-line clears `currentLocation`
either way). -/
theorem parser_emission_invariant :
    (∀ (lines : List String) (d loc : Option String),
      ((parseLoop lines d loc).map Row.time).Sublist
        (lines.filter (fun l => decide (classifyLine l = LineKind.time)))) ∧
    (∀ (ls : List String) (l : String) (d loc : Option String),
      classifyLine l = LineKind.location →
      parseLoop (ls ++ [l]) d loc = parseLoop ls d loc) ∧
    (∀ (ls : List String) (l dl : String) (rest : List String) (d loc : Option String),
      classifyLine l = LineKind.location → is_days_line dl = true →
      parseLoop (ls ++ l :: dl :: rest) d loc = parseLoop (ls ++ dl :: rest) d loc) :=
  ⟨parseLoop_times_sublist,
   fun ls l d loc hl => parseLoop_trailing_location ls l hl d loc,
   fun ls l dl rest d loc hl hdl =>
     parseLoop_location_before_days ls l dl rest hl hdl d loc⟩

theorem parser_emission_invariant_witness :
    ((parseLoop ["Luni", "Sauna", "18:00"] none none).map Row.time).Sublist
      (["Luni", "Sauna", "18:00"].filter
        (fun l => decide (classifyLine l = LineKind.time))) ∧
    parseLoop (["Luni"] ++ ["Sauna"]) none none = parseLoop ["Luni"] none none ∧
    parseLoop ([] ++ "Sauna" :: "Luni" :: ["Piscina", "19:00"]) none none =
      parseLoop ([] ++ "Luni" :: ["Piscina", "19:00"]) none none :=
  ⟨parser_emission_invariant.1 ["Luni", "Sauna", "18:00"] none none,
   parser_emission_invariant.2.1 ["Luni"] "Sauna" none none (by decide),
   parser_emission_invariant.2.2 [] "Sauna" "Luni" ["Piscina", "19:00"] none none
     (by decide) (by decide)⟩

/-- C7: concrete parse results: parsing the empty text yields the empty
list, and parsing "Program\nLuni\nSauna\n18:00 - 19:00" with no known
title yields exactly one row {days: "Luni", location: "Sauna",
time: "18:00 - 19:00"} — the leading "Program" line is dropped by the
case-insensitive preprocessing. -/
theorem parse_concrete_examples :
    parse_schedule_program "" none = [] ∧
    parse_schedule_program "Program\nLuni\nSauna\n18:00 - 19:00" none =
      [{ days := "Luni", location := "Sauna", time := "18:00 - 19:00" }] := by
  constructor
  · rfl
  · decide

/-! ### The unmatched-activities report -/

/-- C8 counterexample: a schedule containing every canonical title verbatim
can still leave a title unmatched. With the catalog ["Sauna", "SAUNA"]
(distinct strings, case-folded equal) and the schedule consisting of the
full ordered name sequence itself, the query "SAUNA" exact-matches the
FIRST case-folded-equal name "Sauna", so the record titled "SAUNA" is never
matched and the unmatched list is ["SAUNA"], not []. -/
theorem unmatched_casefold_duplicate_cex :
    unmatched_activities zeroScorers dupCatalog (activity_names dupCatalog) =
      ["SAUNA"] := by
  decide

/-- C8 (amended): `computeUnmatched` returns the canonical titles whose
records were matched by no schedule name, in catalog order: for an empty
schedule it returns every catalog title, and for a schedule containing
every canonical title verbatim it returns the empty list PROVIDED no two
catalog titles are case-folded equal (with case-folded duplicate titles a
later duplicate can stay unmatched; see the counterexample). -/
theorem unmatched_contract (S : Scorers) (catalog : List Activity) :
    unmatched_activities S catalog [] = activity_names catalog ∧
    (∀ (qs : List String),
      (∀ n ∈ activity_names catalog, n ∈ qs) →
      (activity_names catalog).Pairwise (fun m n => pyLower m ≠ pyLower n) →
      unmatched_activities S catalog qs = []) := by
  constructor
  · unfold unmatched_activities matched_titles
    simp
  · intro qs hcov hpair
    unfold unmatched_activities
    rw [List.filter_eq_nil_iff]
    intro n hn
    have hq : n ∈ qs := hcov n hn
    cases hfind : (activity_names catalog).find? (fun m => pyLower n == pyLower m) with
    | none =>
      exfalso
      exact List.find?_eq_none.mp hfind n hn (by simp)
    | some n₀ =>
      have hmem₀ := List.mem_of_find?_eq_some hfind
      have heq₀ : pyLower n = pyLower n₀ := by simpa using List.find?_some hfind
      have hsymm : Symmetric (fun m n : String => pyLower m ≠ pyLower n) :=
        fun _ _ h he => h he.symm
      have hn₀ : n₀ = n := by
        by_contra hne
        exact hpair.forall hsymm hmem₀ hn hne heq₀.symm
      subst hn₀
      have hsome := details_map_isSome catalog n₀ hn
      obtain ⟨a, ha⟩ := Option.isSome_iff_exists.mp hsome
      have htit : a.title = n₀ := details_map_title catalog n₀ a ha
      have hmem : n₀ ∈ matched_titles S catalog qs := by
        unfold matched_titles
        apply List.mem_filterMap.mpr
        refine ⟨n₀, hq, ?_⟩
        rw [find_best_match_exact_eq S catalog n₀ 60 n₀ hfind]
        simp [ha, htit]
      simp [List.elem_iff, hmem]

theorem unmatched_contract_witness :
    unmatched_activities zeroScorers abCatalog [] = activity_names abCatalog ∧
    unmatched_activities zeroScorers abCatalog ["Alpha", "Beta"] = [] :=
  ⟨(unmatched_contract zeroScorers abCatalog).1,
   (unmatched_contract zeroScorers abCatalog).2 ["Alpha", "Beta"]
     (by decide) (by decide)⟩

end Therme
